import Mathlib

/-!
Shallow embedding of the mdnscontroller repository: the Ingress reconciler
(controller package: onAdd, onUpdate, onDelete, calculateHostDiff, isEnabled,
extractHosts) and the process supervisor (mdns package: MacHandler with its
mutex-guarded processes map, startHost, stopHost and the per-task goroutine
exit handler).

Go maps of strings are modelled as association lists; a map lookup that
defaults to the zero value "" is modelled explicitly.  The supervisor's
mutual-exclusion lock serialises map operations, so the supervisor is
modelled as a sequential state machine over the operations that mutate the
registry: OnHostsAdded, OnHostsRemoved and the goroutine exit handler.
context.WithCancel(mh.ctx) is modelled by recording, for each created task
context, its parent context id; cancellation propagates along recorded
parents.
-/

namespace Mdnscontroller

/-- One Ingress rule: only the Host field is read by the controller. -/
structure IngressRule where
  host : String
deriving DecidableEq, Repr

/-- The slice of netv1.Ingress the controller reads: the Annotations map
(nil modelled as none) and the Spec.Rules list. -/
structure Ingress where
  anns : Option (List (String × String))
  rules : List IngressRule
deriving DecidableEq, Repr

/-- const annotationKey = "mdnscontroller/enabled" -/
def annotationKey : String := "mdnscontroller/enabled"

/-- Go map indexing m[k] on a map[string]string: the value of the first
binding of k, or the zero value "" when k is absent. -/
def goMapGet : List (String × String) → String → String
  | [], _ => ""
  | (k, v) :: rest, key => if k = key then v else goMapGet rest key

/-- First binding of a key in an association list, as an Option. -/
def lookupValue : List (String × String) → String → Option String
  | [], _ => none
  | (k, v) :: rest, key => if k = key then some v else lookupValue rest key

/-- isEnabled: nil annotation map gives false, otherwise the annotation
value is compared with the exact string "true". -/
def isEnabled (ing : Ingress) : Bool :=
  match ing.anns with
  | none => false
  | some m => goMapGet m annotationKey == "true"

/-- The loop body of extractHosts over the rule list: collect each
non-empty Host field in order. -/
def extractHostsFrom : List IngressRule → List String
  | [] => []
  | r :: rest =>
    if r.host ≠ "" then r.host :: extractHostsFrom rest else extractHostsFrom rest

/-- extractHosts pulls hostnames from Ingress rules. -/
def extractHosts (ing : Ingress) : List String :=
  extractHostsFrom ing.rules

/-- Membership test of a Go map[string]struct\x7b\x7d keyed by strings. -/
def memberStr : List String → String → Bool
  | [], _ => false
  | x :: rest, h => if x = h then true else memberStr rest h

/-- Go map insertion of a key (value struct\x7b\x7d carries no data): the key
set gains h if absent. -/
def insertKey (s : List String) (h : String) : List String :=
  if memberStr s h then s else h :: s

/-- The first two loops of calculateHostDiff: build the membership set of a
list of hostnames. -/
def mkSet (l : List String) : List String :=
  l.foldl insertKey []

/-- calculateHostDiff returns the hosts that are in newList but not oldList
(added), and hosts in oldList but not newList (removed). -/
def calculateHostDiff (oldList newList : List String) : List String × List String :=
  let oldSet := mkSet oldList
  let newSet := mkSet newList
  let added := newList.filter (fun h => !memberStr oldSet h)
  let removed := oldList.filter (fun h => !memberStr newSet h)
  (added, removed)

/-- A normalized intent emitted to the HostHandler. -/
inductive Intent
  | hostsAdded (hosts : List String)
  | hostsRemoved (hosts : List String)
deriving DecidableEq, Repr

/-- The dynamic payload of a watch notification: an Ingress, a
cache.DeletedFinalStateUnknown tombstone wrapping another payload, or any
other object shape. -/
inductive WatchObj
  | ingressObj (ing : Ingress)
  | tombstoneObj (inner : WatchObj)
  | otherObj
deriving DecidableEq, Repr

/-- onAdd: drop non-Ingress payloads and disabled ingresses; emit
OnHostsAdded only for a non-empty host list. -/
def onAdd (obj : WatchObj) : List Intent :=
  match obj with
  | .ingressObj ing =>
    if !isEnabled ing then []
    else
      let hosts := extractHosts ing
      if hosts.length > 0 then [Intent.hostsAdded hosts] else []
  | _ => []

/-- onUpdate: the four-way transition over (wasEnabled, isEnabled), with the
diff-based case emitting removed before added, each only when non-empty. -/
def onUpdate (oldObj newObj : WatchObj) : List Intent :=
  match oldObj, newObj with
  | .ingressObj oldIng, .ingressObj newIng =>
    let wasEnabled := isEnabled oldIng
    let nowEnabled := isEnabled newIng
    let oldHosts := extractHosts oldIng
    let newHosts := extractHosts newIng
    if !wasEnabled && nowEnabled then
      [Intent.hostsAdded newHosts]
    else if wasEnabled && !nowEnabled then
      [Intent.hostsRemoved oldHosts]
    else if nowEnabled then
      let diff := calculateHostDiff oldHosts newHosts
      if diff.1.length > 0 || diff.2.length > 0 then
        (if diff.2.length > 0 then [Intent.hostsRemoved diff.2] else []) ++
          (if diff.1.length > 0 then [Intent.hostsAdded diff.1] else [])
      else []
    else []
  | _, _ => []

/-- The two type assertions at the top of onDelete: an Ingress is used
directly, a tombstone's Obj is used when it is an Ingress, anything else is
dropped. -/
def deleteIngressOf : WatchObj → Option Ingress
  | .ingressObj ing => some ing
  | .tombstoneObj (.ingressObj ing) => some ing
  | _ => none

/-- onDelete: unwrap the payload, then emit OnHostsRemoved of the extracted
hosts when the ingress is enabled. -/
def onDelete (obj : WatchObj) : List Intent :=
  match deleteIngressOf obj with
  | none => []
  | some ing =>
    if isEnabled ing then [Intent.hostsRemoved (extractHosts ing)] else []

/-! ### The process supervisor: MacHandler (mdns package)

The Registry is the processes map, hostname to the CancelFunc of the task's
context.  Contexts are identified by Nat ids: the supervisor's own context
mh.ctx is rootCtx, and context.WithCancel(mh.ctx) allocates a fresh id whose
parent is recorded.  Invoking a CancelFunc puts the context id into
cancelledCtxs.  The lock serialises startHost, stopHost and the goroutine
exit handler, so the supervisor is a sequential machine over those
operations. -/

/-- The supervisor state: the processes map (Registry), the parent of every
context created by WithCancel, the directly-cancelled context ids, and the
allocator for fresh context ids. -/
structure MacHandlerState where
  processes : List (String × Nat)
  ctxParent : List (Nat × Nat)
  cancelledCtxs : List Nat
  nextCtx : Nat
deriving DecidableEq, Repr

/-- The supervisor's own context mh.ctx (the single parent scope). -/
def rootCtx : Nat := 0

/-- State at NewMacHandler: empty Registry, no child contexts yet. -/
def initMacHandler : MacHandlerState :=
  { processes := [], ctxParent := [], cancelledCtxs := [], nextCtx := 1 }

/-- Go map lookup v, exists := m[host] on the processes map. -/
def lookupProc : List (String × Nat) → String → Option Nat
  | [], _ => none
  | (k, v) :: rest, h => if k = h then some v else lookupProc rest h

/-- Go delete(m, host) on the processes map. -/
def deleteProc (l : List (String × Nat)) (h : String) : List (String × Nat) :=
  l.filter (fun p => p.1 != h)

/-- Lookup of a context's recorded parent. -/
def ctxLookup : List (Nat × Nat) → Nat → Option Nat
  | [], _ => none
  | (k, v) :: rest, c => if k = c then some v else ctxLookup rest c

/-- A context is cancelled when it was directly cancelled or an ancestor
along the recorded parent chain was; fuel bounds the chain length. -/
def ctxCancelled (pmap : List (Nat × Nat)) (direct : List Nat) :
    Nat → Nat → Bool
  | 0, c => direct.contains c
  | fuel + 1, c =>
    direct.contains c ||
      (match ctxLookup pmap c with
       | some p => ctxCancelled pmap direct fuel p
       | none => false)

/-- startHost: under the lock, skip when the host is already registered;
otherwise derive a child context of mh.ctx, store its CancelFunc in the
Registry and spawn the task. -/
def startHost (s : MacHandlerState) (host : String) : MacHandlerState :=
  match lookupProc s.processes host with
  | some _ => s
  | none =>
    { processes := (host, s.nextCtx) :: s.processes
      ctxParent := (s.nextCtx, rootCtx) :: s.ctxParent
      cancelledCtxs := s.cancelledCtxs
      nextCtx := s.nextCtx + 1 }

/-- stopHost: under the lock, skip when the host is not registered;
otherwise invoke the CancelFunc and delete the entry. -/
def stopHost (s : MacHandlerState) (host : String) : MacHandlerState :=
  match lookupProc s.processes host with
  | none => s
  | some c =>
    { s with
      cancelledCtxs := c :: s.cancelledCtxs
      processes := deleteProc s.processes host }

/-- The tail of the goroutine started by startHost, run when cmd.Run
returns: lock, delete(mh.processes, h), unlock — unconditionally, with no
check that the entry still belongs to this task. -/
def taskExit (s : MacHandlerState) (host : String) : MacHandlerState :=
  { s with processes := deleteProc s.processes host }

/-- OnHostsAdded: startHost for each host in order. -/
def onHostsAdded (s : MacHandlerState) (hosts : List String) : MacHandlerState :=
  hosts.foldl startHost s

/-- OnHostsRemoved: stopHost for each host in order. -/
def onHostsRemoved (s : MacHandlerState) (hosts : List String) : MacHandlerState :=
  hosts.foldl stopHost s

/-- The operations that mutate the Registry, serialised by the lock. -/
inductive SupervisorOp
  | hostsAdded (hosts : List String)
  | hostsRemoved (hosts : List String)
  | exited (host : String)
deriving DecidableEq, Repr

def applyOp (s : MacHandlerState) : SupervisorOp → MacHandlerState
  | .hostsAdded hs => onHostsAdded s hs
  | .hostsRemoved hs => onHostsRemoved s hs
  | .exited h => taskExit s h

/-- The supervisor state after a sequence of operations from the initial
state. -/
def runOps (ops : List SupervisorOp) : MacHandlerState :=
  ops.foldl applyOp initMacHandler

/-- Number of Registry entries for a given hostname. -/
def hostCount (l : List (String × Nat)) (h : String) : Nat :=
  (l.filter (fun p => p.1 == h)).length

/-- At most one Registry entry per hostname. -/
def RegistryAtMostOne (s : MacHandlerState) : Prop :=
  ∀ h, hostCount s.processes h ≤ 1

/-- Every context held in the Registry was created as a child of mh.ctx. -/
def ParentIsRoot (s : MacHandlerState) : Prop :=
  ∀ h c, lookupProc s.processes h = some c →
    ctxLookup s.ctxParent c = some rootCtx

/-! ### Basic lemmas about the membership sets used by calculateHostDiff -/

theorem memberStr_iff_mem (l : List String) (h : String) :
    memberStr l h = true ↔ h ∈ l := by
  induction l with
  | nil => simp [memberStr]
  | cons x rest ih =>
    by_cases hx : x = h
    · subst hx; simp [memberStr]
    · simp [memberStr, hx, ih, Ne.symm hx]

theorem memberStr_insertKey (s : List String) (x h : String) :
    memberStr (insertKey s x) h = (memberStr s h || x == h) := by
  unfold insertKey
  by_cases hm : memberStr s x = true
  · simp only [hm, if_true]
    by_cases hxh : x = h
    · subst hxh; simp [hm]
    · simp [beq_iff_eq, hxh]
  · simp only [Bool.not_eq_true] at hm
    simp only [hm, if_false, Bool.false_eq_true]
    by_cases hxh : x = h
    · subst hxh; simp [memberStr]
    · simp [memberStr, Ne.symm hxh, beq_iff_eq, hxh]

theorem memberStr_foldl_insertKey (l : List String) (acc : List String) (h : String) :
    memberStr (l.foldl insertKey acc) h = (memberStr acc h || memberStr l h) := by
  induction l generalizing acc with
  | nil => simp [memberStr]
  | cons x rest ih =>
    simp only [List.foldl_cons, ih, memberStr_insertKey, memberStr]
    by_cases hxh : x = h
    · subst hxh; simp
    · have : (x == h) = false := by simp [beq_iff_eq, hxh]
      simp [this, hxh]

theorem memberStr_mkSet (l : List String) (h : String) :
    memberStr (mkSet l) h = memberStr l h := by
  simp [mkSet, memberStr_foldl_insertKey, memberStr]

theorem mem_mkSet_iff (l : List String) (h : String) :
    h ∈ mkSet l ↔ h ∈ l := by
  rw [← memberStr_iff_mem, ← memberStr_iff_mem, memberStr_mkSet]

/-! ### Lemmas about the Registry association list -/

theorem lookupProc_deleteProc_self (l : List (String × Nat)) (h : String) :
    lookupProc (deleteProc l h) h = none := by
  induction l with
  | nil => rfl
  | cons p rest ih =>
    obtain ⟨k, v⟩ := p
    by_cases hk : k = h
    · simp [deleteProc, hk] at ih ⊢; exact ih
    · have : (k != h) = true := by simp [bne_iff_ne, hk]
      simp [deleteProc, List.filter_cons, this, lookupProc, hk] at ih ⊢
      exact ih

theorem lookupProc_deleteProc_ne (l : List (String × Nat)) (h h' : String)
    (hne : h ≠ h') :
    lookupProc (deleteProc l h') h = lookupProc l h := by
  induction l with
  | nil => rfl
  | cons p rest ih =>
    obtain ⟨k, v⟩ := p
    by_cases hk : k = h'
    · have : (k != h') = false := by simp [bne_iff_ne, hk]
      have hkh : k ≠ h := by rw [hk]; exact fun e => hne e.symm
      simp [deleteProc, List.filter_cons, this, lookupProc, hkh] at ih ⊢
      exact ih
    · have : (k != h') = true := by simp [bne_iff_ne, hk]
      by_cases hkh : k = h
      · simp [deleteProc, List.filter_cons, this, lookupProc, hkh, hne]
      · simp [deleteProc, List.filter_cons, this, lookupProc, hkh] at ih ⊢
        exact ih

theorem hostCount_deleteProc_le (l : List (String × Nat)) (h h' : String) :
    hostCount (deleteProc l h') h ≤ hostCount l h := by
  unfold hostCount deleteProc
  exact List.Sublist.length_le
    (List.Sublist.filter _ (List.filter_sublist l))

theorem lookupProc_eq_none_iff (l : List (String × Nat)) (h : String) :
    lookupProc l h = none ↔ hostCount l h = 0 := by
  induction l with
  | nil => simp [lookupProc, hostCount]
  | cons p rest ih =>
    obtain ⟨k, v⟩ := p
    by_cases hk : k = h
    · simp [lookupProc, hostCount, List.filter_cons, hk]
    · have : (k == h) = false := by simp [beq_iff_eq, hk]
      simp [lookupProc, hostCount, List.filter_cons, hk, this] at ih ⊢
      exact ih

/-! ### Registry invariants preserved by every supervisor operation -/

theorem hostCount_cons (l : List (String × Nat)) (k : String) (v : Nat) (h : String) :
    hostCount ((k, v) :: l) h =
      (if k = h then hostCount l h + 1 else hostCount l h) := by
  by_cases hk : k = h
  · simp [hostCount, List.filter_cons, hk]
  · have hb : ((k, v).1 == h) = false := by simp [beq_iff_eq, hk]
    simp [hostCount, List.filter_cons, hb, hk]

theorem registryAtMostOne_startHost (s : MacHandlerState) (host : String)
    (hs : RegistryAtMostOne s) : RegistryAtMostOne (startHost s host) := by
  intro h
  cases hl : lookupProc s.processes host with
  | some c => simpa [startHost, hl] using hs h
  | none =>
    have h0 : hostCount s.processes host = 0 := (lookupProc_eq_none_iff _ _).mp hl
    simp only [startHost, hl]
    rw [hostCount_cons]
    by_cases hh : host = h
    · subst hh
      simp [h0]
    · simpa [hh] using hs h

theorem registryAtMostOne_stopHost (s : MacHandlerState) (host : String)
    (hs : RegistryAtMostOne s) : RegistryAtMostOne (stopHost s host) := by
  intro h
  cases hl : lookupProc s.processes host with
  | none => simpa [stopHost, hl] using hs h
  | some c =>
    simp only [stopHost, hl]
    exact le_trans (hostCount_deleteProc_le s.processes h host) (hs h)

theorem registryAtMostOne_taskExit (s : MacHandlerState) (host : String)
    (hs : RegistryAtMostOne s) : RegistryAtMostOne (taskExit s host) := by
  intro h
  exact le_trans (hostCount_deleteProc_le s.processes h host) (hs h)

theorem registryAtMostOne_onHostsAdded (hosts : List String) :
    ∀ s, RegistryAtMostOne s → RegistryAtMostOne (onHostsAdded s hosts) := by
  induction hosts with
  | nil => intro s hs; simpa [onHostsAdded] using hs
  | cons x rest ih =>
    intro s hs
    simpa [onHostsAdded] using ih (startHost s x) (registryAtMostOne_startHost s x hs)

theorem registryAtMostOne_onHostsRemoved (hosts : List String) :
    ∀ s, RegistryAtMostOne s → RegistryAtMostOne (onHostsRemoved s hosts) := by
  induction hosts with
  | nil => intro s hs; simpa [onHostsRemoved] using hs
  | cons x rest ih =>
    intro s hs
    simpa [onHostsRemoved] using ih (stopHost s x) (registryAtMostOne_stopHost s x hs)

theorem registryAtMostOne_applyOp (s : MacHandlerState) (op : SupervisorOp)
    (hs : RegistryAtMostOne s) : RegistryAtMostOne (applyOp s op) := by
  cases op with
  | hostsAdded hosts => exact registryAtMostOne_onHostsAdded hosts s hs
  | hostsRemoved hosts => exact registryAtMostOne_onHostsRemoved hosts s hs
  | exited h => exact registryAtMostOne_taskExit s h hs

theorem registryAtMostOne_runOps (ops : List SupervisorOp) :
    RegistryAtMostOne (runOps ops) := by
  suffices hgen : ∀ s, RegistryAtMostOne s → RegistryAtMostOne (ops.foldl applyOp s) from
    hgen initMacHandler (fun h => by simp [initMacHandler, hostCount])
  induction ops with
  | nil => intro s hs; simpa using hs
  | cons op rest ih =>
    intro s hs
    simpa using ih (applyOp s op) (registryAtMostOne_applyOp s op hs)

theorem parentIsRoot_startHost (s : MacHandlerState) (host : String)
    (hs : ParentIsRoot s) : ParentIsRoot (startHost s host) := by
  intro h c hc
  cases hl : lookupProc s.processes host with
  | some c0 =>
    simp only [startHost, hl] at hc ⊢
    exact hs h c hc
  | none =>
    simp only [startHost, hl] at hc ⊢
    by_cases hn : s.nextCtx = c
    · simp [ctxLookup, hn]
    · simp only [ctxLookup, if_neg hn]
      by_cases hh : host = h
      · subst hh
        simp [lookupProc] at hc
        exact absurd hc hn
      · simp only [lookupProc, if_neg hh] at hc
        exact hs h c hc

theorem parentIsRoot_stopHost (s : MacHandlerState) (host : String)
    (hs : ParentIsRoot s) : ParentIsRoot (stopHost s host) := by
  intro h c hc
  cases hl : lookupProc s.processes host with
  | none =>
    simp only [stopHost, hl] at hc ⊢
    exact hs h c hc
  | some c0 =>
    simp only [stopHost, hl] at hc ⊢
    by_cases hh : h = host
    · subst hh
      rw [lookupProc_deleteProc_self] at hc
      cases hc
    · rw [lookupProc_deleteProc_ne _ _ _ hh] at hc
      exact hs h c hc

theorem parentIsRoot_taskExit (s : MacHandlerState) (host : String)
    (hs : ParentIsRoot s) : ParentIsRoot (taskExit s host) := by
  intro h c hc
  simp only [taskExit] at hc
  by_cases hh : h = host
  · subst hh
    rw [lookupProc_deleteProc_self] at hc
    cases hc
  · rw [lookupProc_deleteProc_ne _ _ _ hh] at hc
    exact hs h c hc

theorem parentIsRoot_onHostsAdded (hosts : List String) :
    ∀ s, ParentIsRoot s → ParentIsRoot (onHostsAdded s hosts) := by
  induction hosts with
  | nil => intro s hs; simpa [onHostsAdded] using hs
  | cons x rest ih =>
    intro s hs
    simpa [onHostsAdded] using ih (startHost s x) (parentIsRoot_startHost s x hs)

theorem parentIsRoot_onHostsRemoved (hosts : List String) :
    ∀ s, ParentIsRoot s → ParentIsRoot (onHostsRemoved s hosts) := by
  induction hosts with
  | nil => intro s hs; simpa [onHostsRemoved] using hs
  | cons x rest ih =>
    intro s hs
    simpa [onHostsRemoved] using ih (stopHost s x) (parentIsRoot_stopHost s x hs)

theorem parentIsRoot_applyOp (s : MacHandlerState) (op : SupervisorOp)
    (hs : ParentIsRoot s) : ParentIsRoot (applyOp s op) := by
  cases op with
  | hostsAdded hosts => exact parentIsRoot_onHostsAdded hosts s hs
  | hostsRemoved hosts => exact parentIsRoot_onHostsRemoved hosts s hs
  | exited h => exact parentIsRoot_taskExit s h hs

theorem parentIsRoot_runOps (ops : List SupervisorOp) :
    ParentIsRoot (runOps ops) := by
  suffices hgen : ∀ s, ParentIsRoot s → ParentIsRoot (ops.foldl applyOp s) from
    hgen initMacHandler (fun h c hc => by simp [initMacHandler, lookupProc] at hc)
  induction ops with
  | nil => intro s hs; simpa using hs
  | cons op rest ih =>
    intro s hs
    simpa using ih (applyOp s op) (parentIsRoot_applyOp s op hs)

/-! ### Claim theorems for the supervisor -/

/-- Claim C1: after any sequence of OnHostsAdded / OnHostsRemoved calls
(and goroutine exits), the Registry holds at most one entry per hostname,
and a further OnHostsAdded for an already-registered hostname leaves the
whole supervisor state unchanged: the duplicate add is a skip that starts
no second task. -/
theorem registry_at_most_one_entry (ops : List SupervisorOp) (h : String) :
    hostCount (runOps ops).processes h ≤ 1 ∧
    (∀ c, lookupProc (runOps ops).processes h = some c →
      onHostsAdded (runOps ops) [h] = runOps ops) := by
  refine ⟨registryAtMostOne_runOps ops h, ?_⟩
  intro c hc
  simp [onHostsAdded, startHost, hc]

theorem registry_at_most_one_entry_witness :
    onHostsAdded (runOps [SupervisorOp.hostsAdded ["a"]]) ["a"]
      = runOps [SupervisorOp.hostsAdded ["a"]] :=
  (registry_at_most_one_entry [SupervisorOp.hostsAdded ["a"]] "a").2 1 rfl

/-- Claim C2, evaluated on the code as written: after adding host "h"
(task context 1), removing it (context 1 is cancelled) and re-adding it
(new task context 2), the Registry entry for "h" is the newer task's
context 2 — yet when the older task's goroutine exits, its exit handler
deletes the entry unconditionally, evicting the newer task's entry, so the
Registry ends with no entry for "h". -/
theorem exit_handler_deletes_newer_entry :
    lookupProc (runOps [SupervisorOp.hostsAdded ["h"], SupervisorOp.hostsRemoved ["h"],
        SupervisorOp.hostsAdded ["h"]]).processes "h" = some 2 ∧
    (runOps [SupervisorOp.hostsAdded ["h"], SupervisorOp.hostsRemoved ["h"],
        SupervisorOp.hostsAdded ["h"]]).cancelledCtxs = [1] ∧
    lookupProc (runOps [SupervisorOp.hostsAdded ["h"], SupervisorOp.hostsRemoved ["h"],
        SupervisorOp.hostsAdded ["h"], SupervisorOp.exited "h"]).processes "h" = none :=
  ⟨rfl, rfl, rfl⟩

/-- Claim C7: OnHostsRemoved for a single hostname is idempotent — with no
Registry entry the state is unchanged, with an entry the entry's
cancellation handle is invoked and the entry deleted — and in either case
the Registry afterwards has no entry for that hostname. -/
theorem stopHost_idempotent_and_removes (s : MacHandlerState) (h : String) :
    (lookupProc s.processes h = none → stopHost s h = s) ∧
    lookupProc (stopHost s h).processes h = none ∧
    (∀ c, lookupProc s.processes h = some c →
      c ∈ (stopHost s h).cancelledCtxs ∧
      (stopHost s h).processes = deleteProc s.processes h) := by
  refine ⟨?_, ?_, ?_⟩
  · intro hn
    simp [stopHost, hn]
  · cases hl : lookupProc s.processes h with
    | none => simp [stopHost, hl]
    | some c => simp [stopHost, hl, lookupProc_deleteProc_self]
  · intro c hc
    simp [stopHost, hc]

theorem stopHost_idempotent_and_removes_witness :
    1 ∈ (stopHost (startHost initMacHandler "a") "a").cancelledCtxs ∧
    (stopHost (startHost initMacHandler "a") "a").processes
      = deleteProc (startHost initMacHandler "a").processes "a" :=
  (stopHost_idempotent_and_removes (startHost initMacHandler "a") "a").2.2 1 rfl

/-- Claim C8: every task context held in the Registry was created by
WithCancel as a child of the supervisor's single parent context mh.ctx, so
cancelling that parent cancels the context of every task that was added
and not yet removed. -/
theorem tasks_child_of_root_cancelled (ops : List SupervisorOp) (h : String)
    (c : Nat) (hc : lookupProc (runOps ops).processes h = some c) :
    ctxLookup (runOps ops).ctxParent c = some rootCtx ∧
    ctxCancelled (runOps ops).ctxParent [rootCtx] 1 c = true := by
  have hp := parentIsRoot_runOps ops h c hc
  refine ⟨hp, ?_⟩
  simp [ctxCancelled, hp, rootCtx]

theorem tasks_child_of_root_cancelled_witness :
    ctxLookup (runOps [SupervisorOp.hostsAdded ["a", "b"]]).ctxParent 2 = some rootCtx ∧
    ctxCancelled (runOps [SupervisorOp.hostsAdded ["a", "b"]]).ctxParent
      [rootCtx] 1 2 = true :=
  tasks_child_of_root_cancelled [SupervisorOp.hostsAdded ["a", "b"]] "b" 2 rfl

/-! ### Further diff-engine lemmas and the reconciler claim theorems -/

theorem memberStr_eq_decide (l : List String) (h : String) :
    memberStr l h = decide (h ∈ l) := by
  cases hb : memberStr l h with
  | true => simp [(memberStr_iff_mem l h).mp hb]
  | false =>
    have hm : ¬h ∈ l := fun hmem =>
      Bool.noConfusion (((memberStr_iff_mem l h).mpr hmem).symm.trans hb)
    simp [hm]

theorem mem_calculateHostDiff_added (A B : List String) (x : String) :
    x ∈ (calculateHostDiff A B).1 ↔ x ∈ B ∧ x ∉ A := by
  simp [calculateHostDiff, List.mem_filter, memberStr_mkSet,
    memberStr_eq_decide, mem_mkSet_iff]

theorem mem_calculateHostDiff_removed (A B : List String) (x : String) :
    x ∈ (calculateHostDiff A B).2 ↔ x ∈ A ∧ x ∉ B := by
  simp [calculateHostDiff, List.mem_filter, memberStr_mkSet,
    memberStr_eq_decide, mem_mkSet_iff]

/-- Claim C4: the diff's added component is exactly the elements of the new
list that are not members of the old list, and the removed component is
exactly the elements of the old list that are not members of the new list,
membership being set membership. -/
theorem calculateHostDiff_added_removed (oldList newList : List String) :
    (calculateHostDiff oldList newList).1
      = newList.filter (fun h => decide (h ∉ oldList)) ∧
    (calculateHostDiff oldList newList).2
      = oldList.filter (fun h => decide (h ∉ newList)) := by
  constructor <;>
  · simp only [calculateHostDiff]
    refine List.filter_congr ?_
    intro h _
    simp [memberStr_mkSet, memberStr_eq_decide, mem_mkSet_iff]

/-- Claim C5: the added and removed results of the diff are disjoint, and
removing the removed elements from the old list and then adding the added
elements yields exactly the element set of the new list. -/
theorem calculateHostDiff_disjoint_reconstruct (A B : List String) :
    (∀ x, x ∈ (calculateHostDiff A B).1 → x ∉ (calculateHostDiff A B).2) ∧
    (∀ x, ((x ∈ A ∧ x ∉ (calculateHostDiff A B).2) ∨ x ∈ (calculateHostDiff A B).1)
      ↔ x ∈ B) := by
  constructor
  · intro x hx
    rw [mem_calculateHostDiff_added] at hx
    rw [mem_calculateHostDiff_removed]
    tauto
  · intro x
    rw [mem_calculateHostDiff_added, mem_calculateHostDiff_removed]
    by_cases hA : x ∈ A <;> by_cases hB : x ∈ B <;> tauto

theorem calculateHostDiff_disjoint_reconstruct_witness :
    ¬"c" ∈ (calculateHostDiff ["a", "b"] ["b", "c"]).2 :=
  (calculateHostDiff_disjoint_reconstruct ["a", "b"] ["b", "c"]).1 "c" (by decide)

/-- Claim C3: onUpdate follows the four-way machine on the enabled flags of
the two snapshots: disabled to disabled emits nothing; disabled to enabled
emits HostsAdded of the full current host list; enabled to disabled emits
HostsRemoved of the full previous host list; enabled to enabled emits
HostsRemoved of the diff's removed component when non-empty and then
HostsAdded of the diff's added component when non-empty, in that order. -/
theorem onUpdate_four_way (oldIng newIng : Ingress) :
    (isEnabled oldIng = false → isEnabled newIng = false →
      onUpdate (WatchObj.ingressObj oldIng) (WatchObj.ingressObj newIng) = []) ∧
    (isEnabled oldIng = false → isEnabled newIng = true →
      onUpdate (WatchObj.ingressObj oldIng) (WatchObj.ingressObj newIng)
        = [Intent.hostsAdded (extractHosts newIng)]) ∧
    (isEnabled oldIng = true → isEnabled newIng = false →
      onUpdate (WatchObj.ingressObj oldIng) (WatchObj.ingressObj newIng)
        = [Intent.hostsRemoved (extractHosts oldIng)]) ∧
    (isEnabled oldIng = true → isEnabled newIng = true →
      onUpdate (WatchObj.ingressObj oldIng) (WatchObj.ingressObj newIng)
        = (if (calculateHostDiff (extractHosts oldIng) (extractHosts newIng)).2 = []
            then []
            else [Intent.hostsRemoved
              (calculateHostDiff (extractHosts oldIng) (extractHosts newIng)).2]) ++
          (if (calculateHostDiff (extractHosts oldIng) (extractHosts newIng)).1 = []
            then []
            else [Intent.hostsAdded
              (calculateHostDiff (extractHosts oldIng) (extractHosts newIng)).1])) := by
  refine ⟨?_, ?_, ?_, ?_⟩
  · intro h1 h2
    simp [onUpdate, h1, h2]
  · intro h1 h2
    simp [onUpdate, h1, h2]
  · intro h1 h2
    simp [onUpdate, h1, h2]
  · intro h1 h2
    by_cases ha : (calculateHostDiff (extractHosts oldIng) (extractHosts newIng)).1 = [] <;>
      by_cases hr : (calculateHostDiff (extractHosts oldIng) (extractHosts newIng)).2 = [] <;>
      simp [onUpdate, h1, h2, ha, hr, List.length_pos]

theorem onUpdate_four_way_witness :
    onUpdate (WatchObj.ingressObj (Ingress.mk none []))
      (WatchObj.ingressObj
        (Ingress.mk (some [(annotationKey, "true")]) [IngressRule.mk "a"]))
      = [Intent.hostsAdded ["a"]] :=
  (onUpdate_four_way (Ingress.mk none [])
      (Ingress.mk (some [(annotationKey, "true")]) [IngressRule.mk "a"])).2.1
    rfl (by decide)

/-- Claim C6: onDelete emits HostsRemoved of the declaration's host list
when the declaration is enabled, nothing when it is disabled; a
deletion-tombstone wrapping an Ingress is unwrapped and handled the same
way; any payload that is neither an Ingress nor a tombstone wrapping one is
dropped silently. -/
theorem onDelete_cases (ing : Ingress) (w : WatchObj) :
    (isEnabled ing = true →
      onDelete (WatchObj.ingressObj ing)
        = [Intent.hostsRemoved (extractHosts ing)]) ∧
    (isEnabled ing = false → onDelete (WatchObj.ingressObj ing) = []) ∧
    onDelete (WatchObj.tombstoneObj (WatchObj.ingressObj ing))
      = onDelete (WatchObj.ingressObj ing) ∧
    ((∀ i, w ≠ WatchObj.ingressObj i) →
      (∀ i, w ≠ WatchObj.tombstoneObj (WatchObj.ingressObj i)) →
      onDelete w = []) := by
  refine ⟨?_, ?_, ?_, ?_⟩
  · intro he
    simp [onDelete, deleteIngressOf, he]
  · intro he
    simp [onDelete, deleteIngressOf, he]
  · rfl
  · intro h1 h2
    cases w with
    | ingressObj i => exact absurd rfl (h1 i)
    | otherObj => rfl
    | tombstoneObj inner =>
      cases inner with
      | ingressObj i => exact absurd rfl (h2 i)
      | otherObj => rfl
      | tombstoneObj inner2 => rfl

theorem onDelete_cases_witness :
    onDelete (WatchObj.ingressObj
        (Ingress.mk (some [(annotationKey, "true")]) [IngressRule.mk "a"]))
      = [Intent.hostsRemoved ["a"]] :=
  (onDelete_cases
      (Ingress.mk (some [(annotationKey, "true")]) [IngressRule.mk "a"])
      WatchObj.otherObj).1 (by decide)

theorem goMapGet_eq_true_iff (m : List (String × String)) (k : String) :
    goMapGet m k = "true" ↔ lookupValue m k = some "true" := by
  induction m with
  | nil =>
    simp [goMapGet, lookupValue, show ("" : String) ≠ "true" from by decide]
  | cons p rest ih =>
    obtain ⟨k2, v⟩ := p
    by_cases hk : k2 = k
    · simp [goMapGet, lookupValue, hk]
    · simp only [goMapGet, lookupValue, if_neg hk]
      exact ih

theorem extractHostsFrom_eq (rs : List IngressRule) :
    extractHostsFrom rs = (rs.map IngressRule.host).filter (fun h => h != "") := by
  induction rs with
  | nil => rfl
  | cons r rest ih =>
    by_cases hr : r.host = ""
    · simp [extractHostsFrom, hr, List.filter_cons, ih]
    · simp [extractHostsFrom, hr, List.filter_cons, ih, bne_iff_ne]

/-- Claim C9: the enabled flag is true exactly when the annotation map
exists and binds the recognized key to the exact string "true", and the
extracted host list is exactly the non-empty host fields of the rules in
rule order, duplicates kept and empty-host rules skipped. -/
theorem extractor_pair_spec (ing : Ingress) :
    (isEnabled ing = true ↔
      ∃ m, ing.anns = some m ∧ lookupValue m annotationKey = some "true") ∧
    extractHosts ing = (ing.rules.map IngressRule.host).filter (fun h => h != "") := by
  constructor
  · cases hm : ing.anns with
    | none => simp [isEnabled, hm]
    | some m =>
      simp only [isEnabled, hm, beq_iff_eq, Option.some.injEq]
      rw [goMapGet_eq_true_iff]
      constructor
      · intro hv
        exact ⟨m, rfl, hv⟩
      · rintro ⟨m2, hm2, hv⟩
        rwa [hm2]
  · exact extractHostsFrom_eq ing.rules

theorem extractor_pair_spec_witness :
    isEnabled (Ingress.mk (some [(annotationKey, "true")]) []) = true :=
  (extractor_pair_spec (Ingress.mk (some [(annotationKey, "true")]) [])).1.mpr
    ⟨[(annotationKey, "true")], rfl, by simp [lookupValue]⟩

/-- Claim C10: on an enabled declaration whose extracted host list is
empty, the three entry points disagree — onAdd emits nothing because of its
non-empty-list guard, while an update transitioning disabled to enabled
emits HostsAdded with the empty list and a delete of the enabled
declaration emits HostsRemoved with the empty list. -/
theorem empty_hosts_entrypoint_disagreement (oldIng newIng : Ingress)
    (h1 : isEnabled oldIng = false) (h2 : isEnabled newIng = true)
    (h3 : extractHosts newIng = []) :
    onAdd (WatchObj.ingressObj newIng) = [] ∧
    onUpdate (WatchObj.ingressObj oldIng) (WatchObj.ingressObj newIng)
      = [Intent.hostsAdded []] ∧
    onDelete (WatchObj.ingressObj newIng) = [Intent.hostsRemoved []] := by
  refine ⟨?_, ?_, ?_⟩
  · simp [onAdd, h2, h3]
  · simp [onUpdate, h1, h2, h3]
  · simp [onDelete, deleteIngressOf, h2, h3]

theorem empty_hosts_entrypoint_disagreement_witness :
    onAdd (WatchObj.ingressObj (Ingress.mk (some [(annotationKey, "true")]) [])) = [] ∧
    onUpdate (WatchObj.ingressObj (Ingress.mk none []))
        (WatchObj.ingressObj (Ingress.mk (some [(annotationKey, "true")]) []))
      = [Intent.hostsAdded []] ∧
    onDelete (WatchObj.ingressObj (Ingress.mk (some [(annotationKey, "true")]) []))
      = [Intent.hostsRemoved []] :=
  empty_hosts_entrypoint_disagreement (Ingress.mk none [])
    (Ingress.mk (some [(annotationKey, "true")]) []) rfl (by decide) rfl

end Mdnscontroller
